import Mathlib

/-!
Shallow embedding of the GitHub-repository synchronizer
(`src/common/models.py`, `src/parser/requests.py`, `src/parser/update.py`)
and proofs about its specification.

Network interaction is modelled by explicit oracles: the remote listing, the
per-repository metadata endpoint and the per-repository commit pages are data
passed to the embedded functions.  Machine-level details that the code never
observes (JSON syntax, HTTP headers beyond the pagination metadata, the
time-of-day component of commit timestamps) are abstracted away; everything
the control flow branches on is kept.
-/

set_option autoImplicit false

namespace GHSync

/-- Calendar date `(year, month, day)`, as produced by `datetime.date` after
`request_repo_activity` truncates the commit timestamp to day granularity
(`src/parser/requests.py:135-136`). -/
structure Date where
  year : Nat
  month : Nat
  day : Nat
deriving DecidableEq, Repr

/-- Lexicographic order on dates, matching chronological order of
`datetime.date`. -/
def Date.lt (a b : Date) : Prop :=
  a.year < b.year ∨
    (a.year = b.year ∧ (a.month < b.month ∨ (a.month = b.month ∧ a.day < b.day)))

instance (a b : Date) : Decidable (Date.lt a b) :=
  inferInstanceAs (Decidable (a.year < b.year ∨
    (a.year = b.year ∧ (a.month < b.month ∨ (a.month = b.month ∧ a.day < b.day)))))

theorem Date.lt_irrefl (a : Date) : ¬ Date.lt a a := by
  unfold Date.lt; omega

theorem Date.ne_of_lt {a b : Date} (h : Date.lt a b) : a ≠ b := by
  rintro rfl; exact Date.lt_irrefl a h

/-- Modelled from the spec: `MAX_AUTHOR_NAME_LENGTH` is imported by
`src/parser/requests.py` from `common.models`, but its definition is absent
from the sources under `src/`.  The accepted commit-author-name type
(`CommitAuthorNameType`, `src/common/models.py:6-10`) allows names of length
1 to 100, so the bound is 100. -/
def MAX_AUTHOR_NAME_LENGTH : Nat := 100

/-- `RepoActivity` (`src/common/models.py:26-34`): day-level activity of one
repository.  `authors` is a set of commit-author names. -/
structure RepoActivity where
  date : Date
  commits : Nat
  authors : Finset String
deriving DecidableEq

/-- State of the streaming aggregation loop in `request_repo_activity`
(`src/parser/requests.py:178-180`): the date currently being accumulated,
the commit count and author set accumulated for it. -/
structure AggState where
  last_date : Option Date
  commit_count : Nat
  authors : Finset String
deriving DecidableEq

/-- Initial aggregation state (`last_date = None`, `commit_count = 0`,
`authors = set()`). -/
def initAggState : AggState := ⟨none, 0, ∅⟩

/-- `src/parser/requests.py:216-217`: add the author name to the set when it
is truthy (present and nonempty) and within the length bound. -/
def addAuthor (authors : Finset String) : Option String → Finset String
  | none => authors
  | some n =>
      if n ≠ "" ∧ n.length ≤ MAX_AUTHOR_NAME_LENGTH then insert n authors
      else authors

/-- Date-transition part of the loop body (`src/parser/requests.py:199-213`):
on a date change, emit the pending aggregate (unless no date was pending) and
reset the accumulators. -/
def aggDateStep (s : AggState) (d : Date) : AggState × List RepoActivity :=
  if s.last_date = some d then (s, [])
  else
    match s.last_date with
    | none => ({ s with last_date := some d }, [])
    | some prev => (⟨some d, 0, ∅⟩, [⟨prev, s.commit_count, s.authors⟩])

/-- Accumulation part of the loop body (`src/parser/requests.py:215-217`):
count the commit and record its author when valid. -/
def aggAuthorStep (s : AggState) (author : Option String) : AggState :=
  { s with
    commit_count := s.commit_count + 1
    authors := addAuthor s.authors author }

/-- One full iteration of the aggregation loop for a parsed commit
`(date, author)`. -/
def aggStep (s : AggState) (c : Date × Option String) : AggState × List RepoActivity :=
  let (s1, out) := aggDateStep s c.1
  (aggAuthorStep s1 c.2, out)

/-- Run the aggregation loop over a list of parsed commits, collecting the
emitted activities. -/
def aggProcess (s : AggState) : List (Date × Option String) → AggState × List RepoActivity
  | [] => (s, [])
  | c :: rest =>
      let (s1, out1) := aggStep s c
      let (s2, out2) := aggProcess s1 rest
      (s2, out1 ++ out2)

/-- Final emission after the stream is exhausted
(`src/parser/requests.py:220-225`): emit the pending aggregate iff its count
is positive.  From any reachable state a positive count forces a pending
date, so the `none` branch is vacuous. -/
def aggFinal (s : AggState) : List RepoActivity :=
  if 0 < s.commit_count then
    match s.last_date with
    | some d => [⟨d, s.commit_count, s.authors⟩]
    | none => []
  else []

/-- The complete activity aggregation of `request_repo_activity` as a pure
function of the parsed commit stream. -/
def aggregate (commits : List (Date × Option String)) : List RepoActivity :=
  let (s, out) := aggProcess initAggState commits
  out ++ aggFinal s

/-- The commits of one same-date run, as parsed `(date, author)` pairs. -/
def runCommits (r : Date × List (Option String)) : List (Date × Option String) :=
  r.2.map (fun a => (r.1, a))

/-- Concatenate contiguous same-date runs into a flat commit stream. -/
def flattenRuns (runs : List (Date × List (Option String))) : List (Date × Option String) :=
  (runs.map runCommits).flatten

/-- The set of valid author names observed in one run. -/
def runAuthors (names : List (Option String)) : Finset String :=
  names.foldl addAuthor ∅

/-- The activity row a run should produce: its date, its length as the commit
count, and its valid author names. -/
def runActivity (r : Date × List (Option String)) : RepoActivity :=
  ⟨r.1, r.2.length, runAuthors r.2⟩

theorem aggProcess_append (s : AggState) (l1 l2 : List (Date × Option String)) :
    aggProcess s (l1 ++ l2) =
      ((aggProcess (aggProcess s l1).1 l2).1,
        (aggProcess s l1).2 ++ (aggProcess (aggProcess s l1).1 l2).2) := by
  induction l1 generalizing s with
  | nil => simp [aggProcess]
  | cons c rest ih => simp [aggProcess, ih]

theorem aggProcess_sameDate (d : Date) (names : List (Option String))
    (c : Nat) (A : Finset String) :
    aggProcess ⟨some d, c, A⟩ (names.map (fun a => (d, a))) =
      (⟨some d, c + names.length, names.foldl addAuthor A⟩, []) := by
  induction names generalizing c A with
  | nil => simp [aggProcess]
  | cons a rest ih =>
      have h1 : aggStep ⟨some d, c, A⟩ (d, a) = (⟨some d, c + 1, addAuthor A a⟩, []) := by
        simp [aggStep, aggDateStep, aggAuthorStep]
      simp only [List.map_cons, aggProcess, h1]
      rw [ih (c + 1) (addAuthor A a)]
      have h2 : c + 1 + rest.length = c + (a :: rest).length := by
        simp [List.length_cons]; omega
      simp [h2]

theorem aggProcess_pending (runs : List (Date × List (Option String))) :
    ∀ (d : Date) (c : Nat) (A : Finset String), 0 < c →
      (∀ r ∈ runs, r.2 ≠ []) →
      List.Chain Ne d (runs.map Prod.fst) →
      (aggProcess ⟨some d, c, A⟩ (flattenRuns runs)).2
          ++ aggFinal (aggProcess ⟨some d, c, A⟩ (flattenRuns runs)).1
        = ⟨d, c, A⟩ :: runs.map runActivity := by
  induction runs with
  | nil =>
      intro d c A hc _ _
      simp [flattenRuns, aggProcess, aggFinal, hc]
  | cons r rest ih =>
      intro d c A hc hne hchain
      obtain ⟨d', names⟩ := r
      cases names with
      | nil => exact absurd rfl (hne (d', []) (List.mem_cons_self _ _))
      | cons a names' =>
          rw [List.map_cons] at hchain
          have hd : d ≠ d' := (List.chain_cons.mp hchain).1
          have hrest : List.Chain Ne d' (rest.map Prod.fst) :=
            (List.chain_cons.mp hchain).2
          have hflat : flattenRuns ((d', a :: names') :: rest)
              = (d', a) :: (names'.map (fun x => (d', x)) ++ flattenRuns rest) := by
            simp [flattenRuns, runCommits]
          have hstep : aggStep ⟨some d, c, A⟩ (d', a)
              = (⟨some d', 1, addAuthor ∅ a⟩, [⟨d, c, A⟩]) := by
            simp [aggStep, aggDateStep, aggAuthorStep, hd]
          have hlen : 1 + names'.length = (a :: names').length := by
            simp [Nat.add_comm]
          have hsame := aggProcess_sameDate d' names' 1 (addAuthor ∅ a)
          have hstate : (⟨some d', 1 + names'.length,
                names'.foldl addAuthor (addAuthor ∅ a)⟩ : AggState)
              = ⟨some d', (a :: names').length, runAuthors (a :: names')⟩ := by
            rw [hlen]; rfl
          have hih := ih d' (a :: names').length (runAuthors (a :: names'))
            (by simp) (fun r hr => hne r (List.mem_cons_of_mem _ hr)) hrest
          rw [hflat]
          simp only [aggProcess, hstep]
          rw [aggProcess_append, hsame, hstate]
          simp only [List.map_cons]
          simp only [List.length_cons] at hih
          simp [hih, runActivity]

/-- C1: for every commit stream that is ordered by date descending with
same-date commits contiguous (modelled as a list of nonempty runs whose dates
strictly decrease), the activity aggregation inside `request_repo_activity`
emits exactly one `RepoActivity` per run: its `commits` field is the run's
length and its `authors` field is the set of valid author names observed in
that run; the trailing aggregate is emitted exactly when its count is
positive, which each nonempty run guarantees. -/
theorem c1_aggregator_runs (runs : List (Date × List (Option String)))
    (hne : ∀ r ∈ runs, r.2 ≠ [])
    (hdesc : List.Chain' (fun x y => Date.lt y.1 x.1) runs) :
    aggregate (flattenRuns runs) = runs.map runActivity := by
  cases runs with
  | nil => simp [flattenRuns, aggregate, aggProcess, aggFinal, initAggState]
  | cons r rest =>
      obtain ⟨d, names⟩ := r
      cases names with
      | nil => exact absurd rfl (hne (d, []) (List.mem_cons_self _ _))
      | cons a names' =>
          have hchain : List.Chain Ne d (rest.map Prod.fst) := by
            have h0 : List.Chain
                (fun x y => Date.lt (Prod.fst y) (Prod.fst x)) (d, a :: names') rest :=
              hdesc
            have h1 : List.Chain
                (fun x y : Date × List (Option String) => x.1 ≠ y.1)
                (d, a :: names') rest :=
              List.Chain.imp (fun x y h => Ne.symm (Date.ne_of_lt h)) h0
            exact (List.chain_map Prod.fst).mpr h1
          have hflat : flattenRuns ((d, a :: names') :: rest)
              = (d, a) :: (names'.map (fun x => (d, x)) ++ flattenRuns rest) := by
            simp [flattenRuns, runCommits]
          have hstep : aggStep initAggState (d, a)
              = (⟨some d, 1, addAuthor ∅ a⟩, []) := by
            simp [initAggState, aggStep, aggDateStep, aggAuthorStep]
          have hlen : 1 + names'.length = (a :: names').length := by
            simp [Nat.add_comm]
          have hsame := aggProcess_sameDate d names' 1 (addAuthor ∅ a)
          have hstate : (⟨some d, 1 + names'.length,
                names'.foldl addAuthor (addAuthor ∅ a)⟩ : AggState)
              = ⟨some d, (a :: names').length, runAuthors (a :: names')⟩ := by
            rw [hlen]; rfl
          have hpend := aggProcess_pending rest d (a :: names').length
            (runAuthors (a :: names')) (by simp)
            (fun r hr => hne r (List.mem_cons_of_mem _ hr)) hchain
          rw [hflat]
          unfold aggregate
          simp only [aggProcess, hstep]
          rw [aggProcess_append, hsame, hstate]
          simp only [List.map_cons]
          simp only [List.length_cons] at hpend
          simp [hpend, runActivity]

theorem string_ne_empty_iff (s : String) : s ≠ "" ↔ 1 ≤ s.length := by
  cases s with
  | mk data =>
      cases data with
      | nil => simp [show String.mk [] = "" from rfl]
      | cons c cs =>
          constructor
          · intro _; simp [String.length]
          · intro _ h
            have : (String.mk (c :: cs)).data = ("" : String).data := by rw [h]
            simp at this

/-- C9: a commit's author name is added to the day's author set if and only
if the name is present and its length satisfies the accepted bound of
`CommitAuthorNameType` (between 1 and `MAX_AUTHOR_NAME_LENGTH` characters);
names outside the bound are excluded, and adding a name already in the set
changes nothing (set semantics collapse duplicates within the day). -/
theorem c9_author_bound (s : AggState) (author : Option String) (n : String) :
    (n ∈ (aggAuthorStep s author).authors ↔
      n ∈ s.authors ∨
        (author = some n ∧ 1 ≤ n.length ∧ n.length ≤ MAX_AUTHOR_NAME_LENGTH)) ∧
    addAuthor (aggAuthorStep s author).authors author
      = (aggAuthorStep s author).authors := by
  cases author with
  | none => simp [aggAuthorStep, addAuthor]
  | some m =>
      by_cases h : m ≠ "" ∧ m.length ≤ MAX_AUTHOR_NAME_LENGTH
      · constructor
        · simp only [aggAuthorStep, addAuthor, if_pos h, Finset.mem_insert,
            Option.some.injEq]
          constructor
          · rintro (rfl | hn)
            · exact Or.inr ⟨rfl, (string_ne_empty_iff n).mp h.1, h.2⟩
            · exact Or.inl hn
          · rintro (hn | ⟨rfl, _, _⟩)
            · exact Or.inr hn
            · exact Or.inl rfl
        · simp [aggAuthorStep, addAuthor, if_pos h, Finset.insert_idem]
      · constructor
        · simp only [aggAuthorStep, addAuthor, if_neg h, Option.some.injEq]
          constructor
          · exact Or.inl
          · rintro (hn | ⟨heq, h1, h2⟩)
            · exact hn
            · exact absurd ⟨(string_ne_empty_iff n).mpr h1, h2⟩ (heq ▸ h)
        · simp [aggAuthorStep, addAuthor, if_neg h]

/-- Concrete instance of the aggregation example from the spec: two runs on
2024-01-03 and 2024-01-02. -/
def c1ExampleRuns : List (Date × List (Option String)) :=
  [(⟨2024, 1, 3⟩, [some "A", some "B"]), (⟨2024, 1, 2⟩, [some "A"])]

theorem c1_aggregator_runs_witness :
    (∀ r ∈ c1ExampleRuns, r.2 ≠ []) ∧
    List.Chain' (fun x y => Date.lt y.1 x.1) c1ExampleRuns ∧
    aggregate (flattenRuns c1ExampleRuns) = c1ExampleRuns.map runActivity ∧
    aggregate (flattenRuns c1ExampleRuns) =
      [⟨⟨2024, 1, 3⟩, 2, {"B", "A"}⟩, ⟨⟨2024, 1, 2⟩, 1, {"A"}⟩] :=
  ⟨by decide, by simp [c1ExampleRuns, List.chain'_cons, Date.lt],
    c1_aggregator_runs c1ExampleRuns (by decide)
      (by simp [c1ExampleRuns, List.chain'_cons, Date.lt]),
    by rfl⟩

/-- The `committer` object of a raw commit payload: an optional timestamp
(already truncated to a `Date`, the only part the code uses) and an optional
author name. -/
structure Committer where
  date : Option Date
  name : Option String
deriving DecidableEq

/-- A raw commit payload: its `commit.committer` object may be missing. -/
structure RawCommit where
  committer : Option Committer
deriving DecidableEq

/-- `parse_commit` (`src/parser/requests.py:121-140`): extract the commit
date and the optional author name; `none` when the committer object or its
date is missing. -/
def parse_commit (c : RawCommit) : Option (Date × Option String) :=
  match c.committer with
  | some ca =>
      match ca.date with
      | some dt => some (dt, ca.name)
      | none => none
  | none => none

/-- Oracle for the commit endpoint of one repository.  `probe` is the
outcome of the `per_page=1` probe request (`src/parser/requests.py:148-173`):
an HTTP error, or the total matching commit count carried by the `Link`
pagination header, `none` when that header is absent.  `page` maps a page
number to that page's commits or an HTTP error. -/
structure ActivityRemote where
  probe : Except Unit (Option Nat)
  page : Nat → Except Unit (List RawCommit)

/-- The paged fetch-and-aggregate loop (`src/parser/requests.py:181-217`).
A page failure stops the loop keeping what was already yielded and skipping
the final emission (the Python `return`); the flag records whether all pages
were processed. -/
def activityPages (r : ActivityRemote) : AggState → List Nat → AggState × List RepoActivity × Bool
  | s, [] => (s, [], true)
  | s, p :: ps =>
      match r.page p with
      | .error _ => (s, [], false)
      | .ok commits =>
          let (s1, out1) := aggProcess s (commits.filterMap parse_commit)
          let (s2, out2, completed) := activityPages r s1 ps
          (s2, out1 ++ out2, completed)

/-- `request_repo_activity` (`src/parser/requests.py:143-225`) as a function
of the remote oracle, returning the list of yielded activities.  All failure
modes end the sequence silently, so the result is always a plain list and no
error escapes. -/
def request_repo_activity (r : ActivityRemote) : List RepoActivity :=
  match r.probe with
  | .error _ => []
  | .ok none => []
  | .ok (some commits_total) =>
      let pages_count := (commits_total + 99) / 100
      let (s, out, completed) := activityPages r initAggState (List.range' 1 pages_count)
      out ++ (if completed then aggFinal s else [])

theorem activityPages_ok (r : ActivityRemote) (pages : Nat → List RawCommit) :
    ∀ (ps : List Nat) (s : AggState), (∀ p ∈ ps, r.page p = Except.ok (pages p)) →
      activityPages r s ps
        = ((aggProcess s ((ps.map (fun p => (pages p).filterMap parse_commit)).flatten)).1,
            (aggProcess s ((ps.map (fun p => (pages p).filterMap parse_commit)).flatten)).2,
            true) := by
  intro ps
  induction ps with
  | nil => intro s _; simp [activityPages, aggProcess]
  | cons p rest ih =>
      intro s hok
      have hp : r.page p = Except.ok (pages p) := hok p (List.mem_cons_self _ _)
      rw [show activityPages r s (p :: rest)
          = ((activityPages r (aggProcess s ((pages p).filterMap parse_commit)).1 rest).1,
              (aggProcess s ((pages p).filterMap parse_commit)).2
                ++ (activityPages r (aggProcess s ((pages p).filterMap parse_commit)).1 rest).2.1,
              (activityPages r (aggProcess s ((pages p).filterMap parse_commit)).1 rest).2.2)
          from by simp only [activityPages, hp]]
      rw [ih _ (fun q hq => hok q (List.mem_cons_of_mem _ hq))]
      rw [List.map_cons, List.flatten_cons, aggProcess_append]

/-- When the probe reports a total count and every page request succeeds,
`request_repo_activity` is exactly the pure aggregation `aggregate` of the
concatenated parsed commit stream — the function claim C1 is about. -/
theorem request_repo_activity_eq_aggregate (r : ActivityRemote) (total : Nat)
    (pages : Nat → List RawCommit)
    (hp : r.probe = Except.ok (some total))
    (hok : ∀ p ∈ List.range' 1 ((total + 99) / 100), r.page p = Except.ok (pages p)) :
    request_repo_activity r
      = aggregate (((List.range' 1 ((total + 99) / 100)).map
          (fun p => (pages p).filterMap parse_commit)).flatten) := by
  unfold request_repo_activity
  rw [hp]
  dsimp only
  rw [activityPages_ok r pages _ initAggState hok]
  simp [aggregate]

/-- C5: if the activity probe response carries no pagination metadata (no
`Link` header), `request_repo_activity` yields the empty sequence and no
error is raised (the function is total on this input). -/
theorem c5_no_link_header (r : ActivityRemote) (h : r.probe = Except.ok none) :
    request_repo_activity r = [] := by
  unfold request_repo_activity
  rw [h]

/-- A probe response with no pagination metadata and empty pages. -/
def c5Remote : ActivityRemote := ⟨Except.ok none, fun _ => Except.ok []⟩

theorem c5_no_link_header_witness :
    c5Remote.probe = Except.ok none ∧ request_repo_activity c5Remote = [] :=
  ⟨rfl, c5_no_link_header c5Remote rfl⟩

/-- `RepoData` (`src/common/models.py:13-23`): basic repository data.  The
pydantic numeric constraints are modelled by `Nat` fields; the name-length
constraints do not influence any control flow modelled here. -/
structure RepoData where
  repo : String
  owner : String
  stars : Nat
  watchers : Nat
  forks : Nat
  open_issues : Nat
  language : Option String
deriving DecidableEq

/-- Attribute payload of `GET /repos/{owner}/{repo}`, the part of the
response body `request_repo` reads. -/
structure RepoAttrs where
  stars : Nat
  watchers : Nat
  forks : Nat
  open_issues : Nat
  language : Option String
deriving DecidableEq

/-- `request_repo` (`src/parser/requests.py:50-75`): fetch repository
metadata and assemble a `RepoData` whose `owner` and `repo` fields come from
the call arguments.  The oracle `details` stands for the endpoint; `none`
covers both the HTTP-error and the validation-error path, which return
`None`. -/
def request_repo (details : String → String → Option RepoAttrs)
    (owner repo : String) : Option RepoData :=
  (details owner repo).map
    (fun a => ⟨repo, owner, a.stars, a.watchers, a.forks, a.open_issues, a.language⟩)

/-- One entry of the public-repositories listing: external GitHub id, owner
login and repository name (the fields read at
`src/parser/requests.py:110-112`). -/
structure ListingEntry where
  id : Nat
  owner : String
  name : String
deriving DecidableEq

/-- The `f'{owner}/{name}'` key used for the skip set. -/
def fullName (owner name : String) : String := owner ++ "/" ++ name

/-- `GET /repositories?since={id}`: the first `pageSize` entries of the
ascending listing whose id is strictly greater than `since` (the `since` id
itself is excluded). -/
def pageSince (listing : List ListingEntry) (pageSize since : Nat) : List ListingEntry :=
  (listing.filter (fun e => since < e.id)).take pageSize

/-- The `curr < limit` test, where `limit` may be the float `inf`
(modelled as `none`). -/
def underLimit (curr : Nat) : Option Int → Prop
  | none => True
  | some l => (curr : Int) < l

instance (curr : Nat) (l : Option Int) : Decidable (underLimit curr l) :=
  match l with
  | none => isTrue trivial
  | some l => inferInstanceAs (Decidable ((curr : Int) < l))

/-- Result of the inner `for repo in data` loop over one listing page. -/
structure PageResult where
  yielded : List (ListingEntry × RepoData)
  last_id : Nat
  curr : Nat
  requests : Nat
deriving DecidableEq

/-- The inner loop of `request_public_repositories`
(`src/parser/requests.py:107-118`): for each entry, break when the limit is
reached, advance `last_id`, skip entries in the skip set, request details
and yield on success.  `requests` counts the detail requests issued. -/
def processPage (details : String → String → Option RepoAttrs) (skip : List String)
    (limit : Option Int) : List ListingEntry → Nat → Nat → PageResult
  | [], last_id, curr => ⟨[], last_id, curr, 0⟩
  | e :: rest, last_id, curr =>
      if underLimit curr limit then
        if fullName e.owner e.name ∈ skip then
          processPage details skip limit rest e.id curr
        else
          match request_repo details e.owner e.name with
          | some rd =>
              let r := processPage details skip limit rest e.id (curr + 1)
              ⟨(e, rd) :: r.yielded, r.last_id, r.curr, r.requests + 1⟩
          | none =>
              let r := processPage details skip limit rest e.id curr
              ⟨r.yielded, r.last_id, r.curr, r.requests + 1⟩
      else ⟨[], last_id, curr, 0⟩

/-- Result of the outer `while curr < limit` loop.  `requests` counts both
listing-page and detail requests; `finished = false` means the loop was
still running when the iteration bound `fuel` ran out. -/
structure FetchResult where
  yielded : List (ListingEntry × RepoData)
  requests : Nat
  curr : Nat
  finished : Bool
deriving DecidableEq

/-- The outer loop of `request_public_repositories`
(`src/parser/requests.py:94-118`), `fuel` bounding the number of iterations.
The listing endpoint is modelled as a total function of the listing; the
HTTP-failure path (log and return) is not exercised by any claim. -/
def fetchLoop (details : String → String → Option RepoAttrs) (listing : List ListingEntry)
    (pageSize : Nat) (skip : List String) (limit : Option Int) :
    Nat → Nat → Nat → FetchResult
  | 0, _, curr => ⟨[], 0, curr, false⟩
  | fuel + 1, last_id, curr =>
      if underLimit curr limit then
        let pr := processPage details skip limit (pageSince listing pageSize last_id) last_id curr
        let r := fetchLoop details listing pageSize skip limit fuel pr.last_id pr.curr
        ⟨pr.yielded ++ r.yielded, 1 + pr.requests + r.requests, r.curr, r.finished⟩
      else ⟨[], 0, curr, true⟩

/-- `request_public_repositories` (`src/parser/requests.py:78-118`) over the
listing and details oracles. -/
def request_public_repositories (details : String → String → Option RepoAttrs)
    (listing : List ListingEntry) (pageSize : Nat) (limit : Option Int)
    (skip_repos : List String) (after_github_id : Nat) (fuel : Nat) : FetchResult :=
  fetchLoop details listing pageSize skip_repos limit fuel after_github_id 0

/-- C10: called with a limit at most zero, the iterator yields no items and
issues no remote requests (neither listing pages nor detail fetches). -/
theorem c10_nonpositive_limit (details : String → String → Option RepoAttrs)
    (listing : List ListingEntry) (pageSize : Nat) (skip : List String)
    (after fuel : Nat) (L : Int) (hL : L ≤ 0) :
    (request_public_repositories details listing pageSize (some L) skip after fuel).yielded = [] ∧
    (request_public_repositories details listing pageSize (some L) skip after fuel).requests = 0 := by
  unfold request_public_repositories
  cases fuel with
  | zero => exact ⟨rfl, rfl⟩
  | succ n =>
      have h : ¬ underLimit 0 (some L) := by
        simp only [underLimit]
        omega
      simp [fetchLoop, h]

theorem c10_nonpositive_limit_witness :
    (0 : Int) ≤ 0 ∧
    (request_public_repositories (fun _ _ => none) [⟨1, "a", "b"⟩] 100 (some 0) [] 0 5).yielded = [] ∧
    (request_public_repositories (fun _ _ => none) [⟨1, "a", "b"⟩] 100 (some 0) [] 0 5).requests = 0 :=
  ⟨le_refl 0,
    c10_nonpositive_limit (fun _ _ => none) [⟨1, "a", "b"⟩] 100 [] 0 5 0 (le_refl 0)⟩

/-- C6 (refuted; code bug): with the listing exhausted — no entries with id
above `after_github_id` — and the limit not yet reached, the outer `while`
loop of `request_public_repositories` re-requests the same empty page
forever: its state never changes, so no iteration bound makes it finish.
The claim (and the spec) say the iterator stops once the listing is
exhausted. -/
theorem c6_exhausted_listing_never_finishes :
    ¬ ∃ fuel : Nat,
      (request_public_repositories (fun _ _ => none) [] 100 (some 1) [] 0 fuel).finished
        = true := by
  have key : ∀ fuel : Nat,
      (fetchLoop (fun _ _ => none) [] 100 [] (some 1) fuel 0 0).finished = false := by
    intro fuel
    induction fuel with
    | zero => rfl
    | succ n ih =>
        have h : underLimit 0 (some 1) := by
          show (0 : Int) < 1
          omega
        simp only [fetchLoop, if_pos h]
        simpa [pageSince, processPage] using ih
  rintro ⟨fuel, hf⟩
  rw [request_public_repositories, key fuel] at hf
  cases hf

theorem processPage_spec (details : String → String → Option RepoAttrs)
    (skip : List String) (limit : Option Int) (es : List ListingEntry) :
    ∀ (l0 c0 : Nat), (∀ e ∈ es, l0 < e.id) →
      ((es.map ListingEntry.id).Pairwise (· < ·)) →
      (processPage details skip limit es l0 c0).curr
          = c0 + (processPage details skip limit es l0 c0).yielded.length ∧
      (∀ L, limit = some L →
        (processPage details skip limit es l0 c0).curr ≤ max c0 L.toNat) ∧
      ((processPage details skip limit es l0 c0).yielded.map Prod.fst).Sublist es ∧
      (∀ x ∈ (processPage details skip limit es l0 c0).yielded,
        fullName x.1.owner x.1.name ∉ skip) ∧
      (∀ x ∈ (processPage details skip limit es l0 c0).yielded,
        request_repo details x.1.owner x.1.name = some x.2) ∧
      l0 ≤ (processPage details skip limit es l0 c0).last_id ∧
      (∀ x ∈ (processPage details skip limit es l0 c0).yielded,
        x.1.id ≤ (processPage details skip limit es l0 c0).last_id) := by
  induction es with
  | nil =>
      intro l0 c0 _ _
      refine ⟨rfl, fun L _ => le_max_left _ _, List.Sublist.refl _, ?_, ?_, le_refl _, ?_⟩
        <;> simp [processPage]
  | cons e rest ih =>
      intro l0 c0 hgt hsort
      have hgt_e : l0 < e.id := hgt e (List.mem_cons_self _ _)
      have hp : (∀ a ∈ rest, e.id < a.id) ∧
          (rest.map ListingEntry.id).Pairwise (· < ·) := by
        simpa using hsort
      have hgt_rest : ∀ e' ∈ rest, e.id < e'.id := hp.1
      have hsort_rest : (rest.map ListingEntry.id).Pairwise (· < ·) := hp.2
      by_cases hu : underLimit c0 limit
      · by_cases hskip : fullName e.owner e.name ∈ skip
        · have heq : processPage details skip limit (e :: rest) l0 c0
              = processPage details skip limit rest e.id c0 := by
            simp only [processPage, if_pos hu, if_pos hskip]
          obtain ⟨h1, h2, h3, h4, h5, h6, h7⟩ := ih e.id c0 hgt_rest hsort_rest
          rw [heq]
          exact ⟨h1, h2, h3.cons e, h4, h5, le_trans (le_of_lt hgt_e) h6, h7⟩
        · cases hreq : request_repo details e.owner e.name with
          | some rd =>
              have heq : processPage details skip limit (e :: rest) l0 c0
                  = ⟨(e, rd) :: (processPage details skip limit rest e.id (c0 + 1)).yielded,
                      (processPage details skip limit rest e.id (c0 + 1)).last_id,
                      (processPage details skip limit rest e.id (c0 + 1)).curr,
                      (processPage details skip limit rest e.id (c0 + 1)).requests + 1⟩ := by
                simp only [processPage, if_pos hu, if_neg hskip, hreq]
              obtain ⟨h1, h2, h3, h4, h5, h6, h7⟩ := ih e.id (c0 + 1) hgt_rest hsort_rest
              rw [heq]
              refine ⟨?_, ?_, ?_, ?_, ?_, ?_, ?_⟩
              · simp only [List.length_cons]
                omega
              · intro L hL
                subst hL
                have hu' : (c0 : Int) < L := hu
                have hh := h2 L rfl
                dsimp only
                omega
              · simpa using h3.cons₂ e
              · intro x hx
                rcases List.mem_cons.mp hx with rfl | hx'
                · exact hskip
                · exact h4 x hx'
              · intro x hx
                rcases List.mem_cons.mp hx with rfl | hx'
                · exact hreq
                · exact h5 x hx'
              · exact le_trans (le_of_lt hgt_e) h6
              · intro x hx
                rcases List.mem_cons.mp hx with rfl | hx'
                · exact h6
                · exact h7 x hx'
          | none =>
              have heq : processPage details skip limit (e :: rest) l0 c0
                  = ⟨(processPage details skip limit rest e.id c0).yielded,
                      (processPage details skip limit rest e.id c0).last_id,
                      (processPage details skip limit rest e.id c0).curr,
                      (processPage details skip limit rest e.id c0).requests + 1⟩ := by
                simp only [processPage, if_pos hu, if_neg hskip, hreq]
              obtain ⟨h1, h2, h3, h4, h5, h6, h7⟩ := ih e.id c0 hgt_rest hsort_rest
              rw [heq]
              exact ⟨h1, h2, h3.cons e, h4, h5, le_trans (le_of_lt hgt_e) h6, h7⟩
      · have heq : processPage details skip limit (e :: rest) l0 c0
            = ⟨[], l0, c0, 0⟩ := by
          simp only [processPage, if_neg hu]
        rw [heq]
        refine ⟨rfl, fun L _ => le_max_left _ _, ?_, ?_, ?_, le_refl _, ?_⟩ <;> simp

theorem pageSince_sublist (listing : List ListingEntry) (pageSize since : Nat) :
    List.Sublist (pageSince listing pageSize since) listing :=
  (List.take_sublist _ _).trans (List.filter_sublist _)

theorem pageSince_gt (listing : List ListingEntry) (pageSize since : Nat) :
    ∀ e ∈ pageSince listing pageSize since, since < e.id := by
  intro e he
  have := List.mem_of_mem_take he
  simpa using (List.mem_filter.mp this).2

theorem fetchLoop_spec (details : String → String → Option RepoAttrs)
    (listing : List ListingEntry) (pageSize : Nat) (skip : List String) (limit : Option Int)
    (hsort : (listing.map ListingEntry.id).Pairwise (· < ·)) :
    ∀ (fuel l0 c0 : Nat),
      (fetchLoop details listing pageSize skip limit fuel l0 c0).curr
          = c0 + (fetchLoop details listing pageSize skip limit fuel l0 c0).yielded.length ∧
      (∀ L, limit = some L →
        (fetchLoop details listing pageSize skip limit fuel l0 c0).curr ≤ max c0 L.toNat) ∧
      (((fetchLoop details listing pageSize skip limit fuel l0 c0).yielded.map
          (fun x => x.1.id)).Pairwise (· < ·)) ∧
      (∀ x ∈ (fetchLoop details listing pageSize skip limit fuel l0 c0).yielded,
        l0 < x.1.id) ∧
      (∀ x ∈ (fetchLoop details listing pageSize skip limit fuel l0 c0).yielded,
        fullName x.1.owner x.1.name ∉ skip) ∧
      (∀ x ∈ (fetchLoop details listing pageSize skip limit fuel l0 c0).yielded,
        request_repo details x.1.owner x.1.name = some x.2) := by
  intro fuel
  induction fuel with
  | zero =>
      intro l0 c0
      refine ⟨by simp [fetchLoop], fun L _ => ?_, ?_, ?_, ?_, ?_⟩ <;> simp [fetchLoop]
  | succ n ih =>
      intro l0 c0
      by_cases hu : underLimit c0 limit
      · have hpage_gt := pageSince_gt listing pageSize l0
        have hpage_sorted : ((pageSince listing pageSize l0).map ListingEntry.id).Pairwise
            (· < ·) :=
          hsort.sublist ((pageSince_sublist listing pageSize l0).map ListingEntry.id)
        obtain ⟨p1, p2, p3, p4, p5, p6, p7⟩ :=
          processPage_spec details skip limit (pageSince listing pageSize l0) l0 c0
            hpage_gt hpage_sorted
        obtain ⟨r1, r2, r3, r4, r5, r6⟩ :=
          ih (processPage details skip limit (pageSince listing pageSize l0) l0 c0).last_id
            (processPage details skip limit (pageSince listing pageSize l0) l0 c0).curr
        have heq : fetchLoop details listing pageSize skip limit (n + 1) l0 c0
            = ⟨(processPage details skip limit (pageSince listing pageSize l0) l0 c0).yielded
                  ++ (fetchLoop details listing pageSize skip limit n
                      (processPage details skip limit (pageSince listing pageSize l0) l0 c0).last_id
                      (processPage details skip limit (pageSince listing pageSize l0) l0 c0).curr).yielded,
                1 + (processPage details skip limit (pageSince listing pageSize l0) l0 c0).requests
                  + (fetchLoop details listing pageSize skip limit n
                      (processPage details skip limit (pageSince listing pageSize l0) l0 c0).last_id
                      (processPage details skip limit (pageSince listing pageSize l0) l0 c0).curr).requests,
                (fetchLoop details listing pageSize skip limit n
                    (processPage details skip limit (pageSince listing pageSize l0) l0 c0).last_id
                    (processPage details skip limit (pageSince listing pageSize l0) l0 c0).curr).curr,
                (fetchLoop details listing pageSize skip limit n
                    (processPage details skip limit (pageSince listing pageSize l0) l0 c0).last_id
                    (processPage details skip limit (pageSince listing pageSize l0) l0 c0).curr).finished⟩ := by
          simp only [fetchLoop, if_pos hu]
        rw [heq]
        have hyield_sub : ∀ x ∈ (processPage details skip limit
              (pageSince listing pageSize l0) l0 c0).yielded,
            x.1 ∈ pageSince listing pageSize l0 := by
          intro x hx
          exact p3.subset (List.mem_map_of_mem Prod.fst hx)
        refine ⟨?_, ?_, ?_, ?_, ?_, ?_⟩
        · dsimp only
          rw [List.length_append]
          omega
        · intro L hL
          have hp := p2 L hL
          have hr := r2 L hL
          dsimp only
          omega
        · dsimp only
          rw [List.map_append, List.pairwise_append]
          have hmapeq : ∀ ys : List (ListingEntry × RepoData),
              ys.map (fun x => x.1.id) = (ys.map Prod.fst).map ListingEntry.id := by
            intro ys; rw [List.map_map]; rfl
          refine ⟨?_, r3, ?_⟩
          · rw [hmapeq]
            exact hpage_sorted.sublist (p3.map ListingEntry.id)
          · intro a ha b hb
            obtain ⟨x, hx, rfl⟩ := List.mem_map.mp ha
            obtain ⟨y, hy, rfl⟩ := List.mem_map.mp hb
            exact lt_of_le_of_lt (p7 x hx) (r4 y hy)
        · intro x hx
          rcases List.mem_append.mp hx with hx' | hx'
          · exact hpage_gt x.1 (hyield_sub x hx')
          · exact lt_of_le_of_lt p6 (r4 x hx')
        · intro x hx
          rcases List.mem_append.mp hx with hx' | hx'
          · exact p4 x hx'
          · exact r5 x hx'
        · intro x hx
          rcases List.mem_append.mp hx with hx' | hx'
          · exact p5 x hx'
          · exact r6 x hx'
      · have heq : fetchLoop details listing pageSize skip limit (n + 1) l0 c0
            = ⟨[], 0, c0, true⟩ := by
          simp only [fetchLoop, if_neg hu]
        rw [heq]
        refine ⟨by simp, fun L _ => le_max_left _ _, ?_, ?_, ?_, ?_⟩ <;> simp

/-- C3: over a remote listing ordered strictly ascending by id, the iterator
yields at most `limit` repositories, every yielded repository comes from a
listing entry with id strictly greater than `after_github_id`, the yielded
ids are strictly increasing, entries in `skip_repos` are never yielded, and
the budget counter `curr` equals the number of yields — skipped entries and
failed detail fetches never count against the limit. -/
theorem c3_public_repositories (details : String → String → Option RepoAttrs)
    (listing : List ListingEntry) (pageSize : Nat) (limit : Option Int)
    (skip : List String) (after fuel : Nat)
    (hsort : (listing.map ListingEntry.id).Pairwise (· < ·)) :
    (∀ L, limit = some L →
      (request_public_repositories details listing pageSize limit skip after fuel).yielded.length
        ≤ L.toNat) ∧
    (∀ x ∈ (request_public_repositories details listing pageSize limit skip after fuel).yielded,
      after < x.1.id) ∧
    (((request_public_repositories details listing pageSize limit skip after fuel).yielded.map
        (fun x => x.1.id)).Pairwise (· < ·)) ∧
    (∀ x ∈ (request_public_repositories details listing pageSize limit skip after fuel).yielded,
      fullName x.1.owner x.1.name ∉ skip) ∧
    (request_public_repositories details listing pageSize limit skip after fuel).curr
      = (request_public_repositories details listing pageSize limit skip after fuel).yielded.length := by
  obtain ⟨h1, h2, h3, h4, h5, h6⟩ :=
    fetchLoop_spec details listing pageSize skip limit hsort fuel after 0
  refine ⟨?_, h4, h3, h5, ?_⟩
  · intro L hL
    have := h2 L hL
    unfold request_public_repositories
    omega
  · unfold request_public_repositories
    omega

/-- A three-entry ascending listing where the first entry is excluded. -/
def c3Listing : List ListingEntry := [⟨101, "a", "b"⟩, ⟨102, "c", "d"⟩, ⟨103, "e", "f"⟩]

/-- A details endpoint that always succeeds. -/
def c3Details : String → String → Option RepoAttrs := fun _ _ => some ⟨1, 2, 3, 4, none⟩

theorem c3_public_repositories_witness :
    ((c3Listing.map ListingEntry.id).Pairwise (· < ·)) ∧
    (request_public_repositories c3Details c3Listing 100 (some 5) ["a/b"] 100 3).yielded.length
        ≤ (5 : Int).toNat ∧
    (∀ x ∈ (request_public_repositories c3Details c3Listing 100 (some 5) ["a/b"] 100 3).yielded,
      100 < x.1.id) ∧
    (∀ x ∈ (request_public_repositories c3Details c3Listing 100 (some 5) ["a/b"] 100 3).yielded,
      fullName x.1.owner x.1.name ∉ ["a/b"]) ∧
    (request_public_repositories c3Details c3Listing 100 (some 5) ["a/b"] 100 3).curr
      = (request_public_repositories c3Details c3Listing 100 (some 5) ["a/b"] 100 3).yielded.length := by
  have hsort : (c3Listing.map ListingEntry.id).Pairwise (· < ·) := by
    simp [c3Listing, List.pairwise_cons]
  obtain ⟨h1, h2, h3, h4, h5⟩ :=
    c3_public_repositories c3Details c3Listing 100 (some 5) ["a/b"] 100 3 hsort
  exact ⟨hsort, h1 5 rfl, h2, h4, h5⟩

/-- A row of the `repositories` table.  The internal `id` is assigned by the
database at first insert and never changes. -/
structure RepoRow where
  id : Nat
  owner : String
  repo : String
  stars : Nat
  watchers : Nat
  forks : Nat
  open_issues : Nat
  language : Option String
deriving DecidableEq

/-- A row of the `activity` table; `authors` is the stored array, inserted
by the code as `sorted(activity.authors)`. -/
structure ActivityRow where
  repo_id : Nat
  date : Date
  commits : Nat
  authors : List String
deriving DecidableEq

/-- The database state: the three tables and the id sequence for
`repositories`.  Modelled from the spec for the constraints: the DDL file
(`create-tables.sql`) is not under `src/`; per spec §6 `repositories` is
unique on (owner, name), `activity` on (repo_id, date) — the
`repo_id_date_tuple` constraint named by `update_activity` — and
`previous_places` on repo_id. -/
structure DB where
  repositories : List RepoRow
  previous_places : List (Nat × Nat)
  activity : List ActivityRow
  next_id : Nat
deriving DecidableEq

/-- SQL `<>` on the nullable `language` column: a comparison involving NULL
is never true, so two NULLs — or a NULL against a string — do not count as
different. -/
def langDiffers (a b : Option String) : Bool :=
  match a, b with
  | some x, some y => x != y
  | _, _ => false

/-- The WHERE clause of the conditional repository update
(`src/parser/update.py:194-203`): the id matches and at least one tracked
attribute differs. -/
def repoRowNeedsUpdate (r : RepoRow) (rid : Nat) (d : RepoData) : Bool :=
  r.id == rid &&
    (r.stars != d.stars || r.watchers != d.watchers || r.forks != d.forks ||
      r.open_issues != d.open_issues || langDiffers r.language d.language)

/-- The conditional repository update (`src/parser/update.py:186-213`):
rewrite every row the WHERE clause selects; the second component is the
number of rows written. -/
def update_repositories (rows : List RepoRow) (rid : Nat) (d : RepoData) :
    List RepoRow × Nat :=
  (rows.map (fun r =>
      if repoRowNeedsUpdate r rid d then
        { r with stars := d.stars, watchers := d.watchers, forks := d.forks,
                 open_issues := d.open_issues, language := d.language }
      else r),
    (rows.filter (fun r => repoRowNeedsUpdate r rid d)).length)

/-- `rank() over (order by stars desc)`: 1 plus the number of rows with
strictly more stars (ties share a rank). -/
def rankOf (rows : List RepoRow) (r : RepoRow) : Nat :=
  1 + (rows.filter (fun x => r.stars < x.stars)).length

/-- The ON condition of the merge: a target row whose repo_id equals the
source row's id. -/
def ppKeyMatch (rid : Nat) : Nat × Nat → Bool := fun e => e.1 == rid

/-- One source row of the `merge into previous_places` statement
(`src/parser/update.py:122-140`): when a target row with this repo id
exists, update it only if the place changed; otherwise insert.  The
accumulator carries the target table and the write count. -/
def mergeOne (source : List RepoRow) (acc : List (Nat × Nat) × Nat) (r : RepoRow) :
    List (Nat × Nat) × Nat :=
  let p := rankOf source r
  match acc.1.find? (ppKeyMatch r.id) with
  | none => (acc.1 ++ [(r.id, p)], acc.2 + 1)
  | some e =>
      if e.2 = p then acc
      else (acc.1.map (fun e' => if ppKeyMatch r.id e' then (e'.1, p) else e'), acc.2 + 1)

/-- The rank-snapshot merge (`src/parser/update.py:122-140`). -/
def merge_previous_places (repos : List RepoRow) (pp : List (Nat × Nat)) :
    List (Nat × Nat) × Nat :=
  repos.foldl (mergeOne repos) (pp, 0)

/-- Insert-if-absent (`src/parser/update.py:241-265`): `insert ... on
conflict do nothing returning id`.  The conflict target is modelled from
the spec (spec §6: `repositories` unique on (owner, name); the DDL is not
under `src/`).  Returns the new state, the returned id — `none` when the
row already existed and `fetchone()` yields `None` — and the rows
written. -/
def insert_repository (db : DB) (d : RepoData) : DB × Option Nat × Nat :=
  if db.repositories.any (fun r => r.owner == d.owner && r.repo == d.repo) then
    (db, none, 0)
  else
    ({ db with
        repositories := db.repositories
          ++ [⟨db.next_id, d.owner, d.repo, d.stars, d.watchers, d.forks,
                d.open_issues, d.language⟩],
        next_id := db.next_id + 1 },
      some db.next_id, 1)

/-- The (repo_id, date) key test of the `repo_id_date_tuple` constraint. -/
def activityKeyMatch (r : ActivityRow) (rid : Nat) (dt : Date) : Bool :=
  r.repo_id == rid && r.date == dt

/-- Sort a multiset of strings ascending; insertion sort is used so that the
definition evaluates inside the kernel. -/
def sortedMultiset (m : Multiset String) : List String :=
  Quot.liftOn m (fun l => l.insertionSort (fun x y : String => x ≤ y))
    (fun l1 l2 h =>
      List.eq_of_perm_of_sorted
        ((List.perm_insertionSort _ l1).trans (h.trans (List.perm_insertionSort _ l2).symm))
        (List.sorted_insertionSort _ l1)
        (List.sorted_insertionSort _ l2))

/-- `sorted(activity.authors)` (`src/parser/update.py:53`). -/
def sortedAuthors (a : Finset String) : List String :=
  sortedMultiset a.val

theorem sortedAuthors_sorted (a : Finset String) :
    List.Sorted (fun x y : String => x ≤ y) (sortedAuthors a) := by
  rcases a with ⟨val, nodup⟩
  induction val using Quot.inductionOn with
  | h l => exact List.sorted_insertionSort _ l

theorem mem_sortedAuthors (a : Finset String) (n : String) :
    n ∈ sortedAuthors a ↔ n ∈ a := by
  rcases a with ⟨val, nodup⟩
  rw [Finset.mem_mk]
  induction val using Quot.inductionOn with
  | h l =>
      exact ((List.perm_insertionSort (fun x y : String => x ≤ y) l).mem_iff).trans
        (Iff.symm (Multiset.mem_coe.symm))

/-- The activity upsert statement (`src/parser/update.py:38-55`): insert
when the key is absent; on conflict update only when the stored commit
count or author array differs from the incoming values. -/
def upsert_activity (rows : List ActivityRow) (rid : Nat) (act : RepoActivity) :
    List ActivityRow × Nat :=
  let au := sortedAuthors act.authors
  match rows.find? (fun r => activityKeyMatch r rid act.date) with
  | none => (rows ++ [⟨rid, act.date, act.commits, au⟩], 1)
  | some r =>
      if r.commits = act.commits ∧ r.authors = au then (rows, 0)
      else
        (rows.map (fun r' =>
            if activityKeyMatch r' rid act.date then
              { r' with commits := act.commits, authors := au }
            else r'),
          1)

/-- C8: for every repository id and fetched activity, the upsert inserts a
row keyed (repo_id, date) when none exists, leaves the stored row untouched
when its commit count and author array already equal the incoming values,
rewrites the keyed row when they differ, and persists the author set as a
sorted list (sorted, with exactly the set's members). -/
theorem c8_activity_upsert (rows : List ActivityRow) (rid : Nat) (act : RepoActivity) :
    List.Sorted (fun x y => x ≤ y) (sortedAuthors act.authors) ∧
    (∀ n, n ∈ sortedAuthors act.authors ↔ n ∈ act.authors) ∧
    (rows.find? (fun r => activityKeyMatch r rid act.date) = none →
      upsert_activity rows rid act
        = (rows ++ [⟨rid, act.date, act.commits, sortedAuthors act.authors⟩], 1)) ∧
    (∀ r, rows.find? (fun r' => activityKeyMatch r' rid act.date) = some r →
      r.commits = act.commits ∧ r.authors = sortedAuthors act.authors →
      upsert_activity rows rid act = (rows, 0)) ∧
    (∀ r, rows.find? (fun r' => activityKeyMatch r' rid act.date) = some r →
      ¬ (r.commits = act.commits ∧ r.authors = sortedAuthors act.authors) →
      upsert_activity rows rid act
        = (rows.map (fun r' =>
            if activityKeyMatch r' rid act.date then
              { r' with commits := act.commits, authors := sortedAuthors act.authors }
            else r'),
          1)) := by
  refine ⟨sortedAuthors_sorted _, fun n => mem_sortedAuthors _ n, ?_, ?_, ?_⟩
  · intro hf
    simp only [upsert_activity, hf]
  · intro r hf hsame
    simp only [upsert_activity, hf, if_pos hsame]
  · intro r hf hdiff
    simp only [upsert_activity, hf, if_neg hdiff]

theorem c8_activity_upsert_witness :
    (([] : List ActivityRow).find?
        (fun r => activityKeyMatch r 7 (⟨⟨2024, 1, 1⟩, 2, {"A"}⟩ : RepoActivity).date)
      = none) ∧
    upsert_activity [] 7 ⟨⟨2024, 1, 1⟩, 2, {"A"}⟩
      = ([⟨7, ⟨2024, 1, 1⟩, 2, ["A"]⟩], 1) :=
  ⟨rfl,
    ((c8_activity_upsert [] 7 ⟨⟨2024, 1, 1⟩, 2, {"A"}⟩).2.2.1 rfl).trans (by decide)⟩

/-- Oracle for everything the synchronizer consumes from the remote API:
the public listing with its page size, the per-repository metadata endpoint,
and — keyed by owner, name and the `since` date — the activity stream
`request_repo_activity` yields for a repository. -/
structure Remote where
  listing : List ListingEntry
  pageSize : Nat
  details : String → String → Option RepoAttrs
  activity : String → String → Date → List RepoActivity

/-- `date(1970, 1, 1)`, used when no activity is stored
(`src/parser/update.py:33-34`). -/
def epochDate : Date := ⟨1970, 1, 1⟩

/-- `update_activity` (`src/parser/update.py:13-55`) against the remote
oracle: upsert every activity the fetch yields, counting row writes. -/
def update_activity (remote : Remote) (db : DB) (rid : Nat) (owner repo : String)
    (last_activity_date : Option Date) : DB × Nat :=
  (remote.activity owner repo (last_activity_date.getD epochDate)).foldl
    (fun acc act =>
      let (rows, w) := upsert_activity acc.1.activity rid act
      ({ acc.1 with activity := rows }, acc.2 + w))
    (db, 0)

/-- Accumulator of the Phase-3 (new repositories) loop: the database, the
row writes so far and the full names inserted so far. -/
structure Phase3State where
  db : DB
  writes : Nat
  inserted : List String
deriving DecidableEq

/-- The body of the Phase-3 loop (`src/parser/update.py:237-272`) for one
discovered repository: insert it; when the insert reports the row already
existed (`fetchone()` returns `None`) `continue` — activity ingestion is
skipped and nothing is raised; otherwise ingest its full activity
history. -/
def step3_item (remote : Remote) (acc : Phase3State) (x : ListingEntry × RepoData) :
    Phase3State :=
  match insert_repository acc.db x.2 with
  | (db1, none, w1) => ⟨db1, acc.writes + w1, acc.inserted⟩
  | (db1, some rid, w1) =>
      let (db2, w2) := update_activity remote db1 rid x.2.owner x.2.repo none
      ⟨db2, acc.writes + w1 + w2, acc.inserted ++ [fullName x.2.owner x.2.repo]⟩

/-- C7: an insert that hits the (owner, name) uniqueness conflict does
nothing and reports "already existed" (no returned id, zero writes) instead
of raising; the ingestion body then skips activity ingestion for that item
and continues without error; and inserting the same (owner, name) twice
leaves exactly one stored row, the second call reporting the conflict. -/
theorem c7_insert_if_absent (db : DB) (d : RepoData) (remote : Remote)
    (st : Phase3State) (e : ListingEntry) :
    (db.repositories.any (fun r => r.owner == d.owner && r.repo == d.repo) = true →
      insert_repository db d = (db, none, 0)) ∧
    (st.db.repositories.any (fun r => r.owner == d.owner && r.repo == d.repo) = true →
      step3_item remote st (e, d) = st) ∧
    (db.repositories.any (fun r => r.owner == d.owner && r.repo == d.repo) = false →
      ((insert_repository db d).1.repositories.filter
          (fun r => r.owner == d.owner && r.repo == d.repo)).length = 1 ∧
      insert_repository (insert_repository db d).1 d
        = ((insert_repository db d).1, none, 0)) := by
  refine ⟨?_, ?_, ?_⟩
  · intro h
    simp [insert_repository, h]
  · intro h
    have hi : insert_repository st.db d = (st.db, none, 0) := by
      simp [insert_repository, h]
    simp [step3_item, hi]
  · intro h
    have hfilter : db.repositories.filter
        (fun r => r.owner == d.owner && r.repo == d.repo) = [] := by
      rw [List.filter_eq_nil_iff]
      intro a ha hpa
      have := List.any_eq_false.mp h a ha
      exact this hpa
    have hins : insert_repository db d
        = ({ db with
              repositories := db.repositories
                ++ [⟨db.next_id, d.owner, d.repo, d.stars, d.watchers, d.forks,
                      d.open_issues, d.language⟩],
              next_id := db.next_id + 1 },
            some db.next_id, 1) := by
      simp only [insert_repository, h]
      rfl
    constructor
    · rw [hins]
      simp [List.filter_append, hfilter]
    · rw [hins]
      have hany : ({ db with
              repositories := db.repositories
                ++ [⟨db.next_id, d.owner, d.repo, d.stars, d.watchers, d.forks,
                      d.open_issues, d.language⟩],
              next_id := db.next_id + 1 } : DB).repositories.any
            (fun r => r.owner == d.owner && r.repo == d.repo) = true := by
        simp [List.any_append]
      simp [insert_repository, hany]

/-- A database already holding the row (owner `"a"`, name `"b"`). -/
def c7DB : DB :=
  ⟨[⟨1, "a", "b", 0, 0, 0, 0, none⟩], [], [], 2⟩

/-- Fresh data for the same (owner, name). -/
def c7Data : RepoData := ⟨"b", "a", 5, 5, 5, 5, none⟩

/-- An empty database. -/
def c7EmptyDB : DB := ⟨[], [], [], 1⟩

theorem c7_insert_if_absent_witness :
    (c7DB.repositories.any
        (fun r => r.owner == c7Data.owner && r.repo == c7Data.repo) = true) ∧
    insert_repository c7DB c7Data = (c7DB, none, 0) ∧
    (c7EmptyDB.repositories.any
        (fun r => r.owner == c7Data.owner && r.repo == c7Data.repo) = false) ∧
    ((insert_repository c7EmptyDB c7Data).1.repositories.filter
        (fun r => r.owner == c7Data.owner && r.repo == c7Data.repo)).length = 1 ∧
    insert_repository (insert_repository c7EmptyDB c7Data).1 c7Data
      = ((insert_repository c7EmptyDB c7Data).1, none, 0) :=
  ⟨by decide,
    (c7_insert_if_absent c7DB c7Data ⟨[], 100, fun _ _ => none, fun _ _ _ => []⟩
      ⟨c7DB, 0, []⟩ ⟨1, "a", "b"⟩).1 (by decide),
    by decide,
    ((c7_insert_if_absent c7EmptyDB c7Data ⟨[], 100, fun _ _ => none, fun _ _ _ => []⟩
      ⟨c7EmptyDB, 0, []⟩ ⟨1, "a", "b"⟩).2.2 (by decide)).1,
    ((c7_insert_if_absent c7EmptyDB c7Data ⟨[], 100, fun _ _ => none, fun _ _ _ => []⟩
      ⟨c7EmptyDB, 0, []⟩ ⟨1, "a", "b"⟩).2.2 (by decide)).2⟩

theorem langDiffers_self (a : Option String) : langDiffers a a = false := by
  cases a <;> simp [langDiffers]

theorem repoRowNeedsUpdate_after (r : RepoRow) (rid : Nat) (d : RepoData) :
    repoRowNeedsUpdate
      (if repoRowNeedsUpdate r rid d then
        { r with stars := d.stars, watchers := d.watchers, forks := d.forks,
                 open_issues := d.open_issues, language := d.language }
      else r) rid d = false := by
  cases h : repoRowNeedsUpdate r rid d with
  | false => simp [h]
  | true =>
      rw [if_pos rfl]
      simp [repoRowNeedsUpdate, langDiffers_self]

theorem update_repositories_idem (rows : List RepoRow) (rid : Nat) (d : RepoData) :
    update_repositories (update_repositories rows rid d).1 rid d
      = ((update_repositories rows rid d).1, 0) := by
  unfold update_repositories
  have hpt : ∀ a ∈ rows.map (fun r =>
      if repoRowNeedsUpdate r rid d then
        { r with stars := d.stars, watchers := d.watchers, forks := d.forks,
                 open_issues := d.open_issues, language := d.language }
      else r), repoRowNeedsUpdate a rid d = false := by
    intro a ha
    obtain ⟨r, _, rfl⟩ := List.mem_map.mp ha
    exact repoRowNeedsUpdate_after r rid d
  simp only [Prod.mk.injEq]
  constructor
  · conv_rhs => rw [← List.map_id (rows.map _)]
    exact List.map_congr_left (fun a ha => by simp [hpt a ha])
  · rw [List.filter_eq_nil_iff.mpr (fun a ha => by simp [hpt a ha])]
    rfl

theorem insert_repository_idem (db : DB) (d : RepoData) :
    insert_repository (insert_repository db d).1 d
      = ((insert_repository db d).1, none, 0) := by
  cases h : db.repositories.any (fun r => r.owner == d.owner && r.repo == d.repo) with
  | true => simp [insert_repository, h]
  | false =>
      have h1 : (insert_repository db d).1
          = { db with
              repositories := db.repositories
                ++ [⟨db.next_id, d.owner, d.repo, d.stars, d.watchers, d.forks,
                      d.open_issues, d.language⟩],
              next_id := db.next_id + 1 } := by
        simp [insert_repository, h]
      rw [h1]
      simp [insert_repository, List.any_append]

theorem activityKeyMatch_update (r' : ActivityRow) (rid : Nat) (dt : Date)
    (c : Nat) (au : List String) :
    activityKeyMatch
      (if activityKeyMatch r' rid dt then { r' with commits := c, authors := au } else r')
      rid dt = activityKeyMatch r' rid dt := by
  cases h : activityKeyMatch r' rid dt with
  | false => simp [h]
  | true =>
      rw [if_pos rfl]
      simpa [activityKeyMatch] using h

theorem upsert_activity_idem (rows : List ActivityRow) (rid : Nat) (act : RepoActivity) :
    upsert_activity (upsert_activity rows rid act).1 rid act
      = ((upsert_activity rows rid act).1, 0) := by
  cases hf : rows.find? (fun r => activityKeyMatch r rid act.date) with
  | none =>
      have h1 : upsert_activity rows rid act
          = (rows ++ [(⟨rid, act.date, act.commits, sortedAuthors act.authors⟩ : ActivityRow)],
              1) := by
        simp only [upsert_activity, hf]
      rw [h1]
      have hm : activityKeyMatch
          (⟨rid, act.date, act.commits, sortedAuthors act.authors⟩ : ActivityRow)
          rid act.date = true := by
        simp [activityKeyMatch]
      have hf2 : (rows ++ [(⟨rid, act.date, act.commits, sortedAuthors act.authors⟩
            : ActivityRow)]).find? (fun r => activityKeyMatch r rid act.date)
          = some (⟨rid, act.date, act.commits, sortedAuthors act.authors⟩ : ActivityRow) := by
        rw [List.find?_append, hf]
        simp [List.find?_cons, hm]
      simp only [upsert_activity, hf2]
      simp
  | some r =>
      have hr : activityKeyMatch r rid act.date = true := by
        have := List.find?_some hf
        simpa using this
      by_cases hc : r.commits = act.commits ∧ r.authors = sortedAuthors act.authors
      · have h1 : upsert_activity rows rid act = (rows, 0) := by
          simp only [upsert_activity, hf, if_pos hc]
        rw [h1]
        exact h1
      · have h1 : upsert_activity rows rid act
            = (rows.map (fun r' =>
                if activityKeyMatch r' rid act.date then
                  { r' with commits := act.commits, authors := sortedAuthors act.authors }
                else r'),
              1) := by
          simp only [upsert_activity, hf, if_neg hc]
        rw [h1]
        have hcomp : (fun x => activityKeyMatch
              (if activityKeyMatch x rid act.date then
                { x with commits := act.commits, authors := sortedAuthors act.authors }
              else x) rid act.date)
            = (fun x => activityKeyMatch x rid act.date) :=
          funext (fun x => activityKeyMatch_update x rid act.date act.commits
            (sortedAuthors act.authors))
        have hf3 : (rows.map (fun r' =>
              if activityKeyMatch r' rid act.date then
                { r' with commits := act.commits, authors := sortedAuthors act.authors }
              else r')).find? (fun r' => activityKeyMatch r' rid act.date)
            = some { r with commits := act.commits, authors := sortedAuthors act.authors } := by
          rw [List.find?_map]
          have : ((fun r' => activityKeyMatch r' rid act.date) ∘
              (fun r' => if activityKeyMatch r' rid act.date then
                { r' with commits := act.commits, authors := sortedAuthors act.authors }
              else r')) = (fun r' => activityKeyMatch r' rid act.date) := hcomp
          rw [this, hf]
          simp [if_pos hr]
        simp only [upsert_activity, hf3]
        simp

theorem mergeOne_establishes (source : List RepoRow) (acc : List (Nat × Nat) × Nat)
    (r : RepoRow) :
    (mergeOne source acc r).1.find? (ppKeyMatch r.id)
      = some (r.id, rankOf source r) := by
  unfold mergeOne
  cases hf : acc.1.find? (ppKeyMatch r.id) with
  | none =>
      dsimp only
      rw [List.find?_append, hf]
      simp [List.find?_cons, ppKeyMatch]
  | some e =>
      have hkey : e.1 = r.id := by
        have := List.find?_some hf
        simpa [ppKeyMatch] using this
      dsimp only
      by_cases hp : e.2 = rankOf source r
      · rw [if_pos hp, hf]
        obtain ⟨e1, e2⟩ := e
        simp only at hkey hp
        rw [hkey, hp]
      · rw [if_neg hp]
        dsimp only
        rw [List.find?_map]
        have hcomp : (ppKeyMatch r.id ∘
            (fun e' => if ppKeyMatch r.id e' then (e'.1, rankOf source r) else e'))
            = ppKeyMatch r.id := by
          funext e'
          by_cases h : ppKeyMatch r.id e' = true
          · simp [h, ppKeyMatch] at h ⊢
            simp [h]
          · simp only [Function.comp_apply]
            rw [if_neg h]
        rw [hcomp, hf]
        simp only [Option.map_some']
        rw [if_pos (by simpa [ppKeyMatch] using hkey)]
        rw [hkey]

theorem mergeOne_preserves (source : List RepoRow) (acc : List (Nat × Nat) × Nat)
    (r' : RepoRow) (rid : Nat) (v : Nat × Nat) (hne : r'.id ≠ rid)
    (hf : acc.1.find? (ppKeyMatch rid) = some v) :
    (mergeOne source acc r').1.find? (ppKeyMatch rid) = some v := by
  have hv : v.1 = rid := by
    have := List.find?_some hf
    simpa [ppKeyMatch] using this
  unfold mergeOne
  cases hf' : acc.1.find? (ppKeyMatch r'.id) with
  | none =>
      dsimp only
      rw [List.find?_append, hf]
      rfl
  | some e =>
      dsimp only
      by_cases hp : e.2 = rankOf source r'
      · rw [if_pos hp]
        exact hf
      · rw [if_neg hp]
        dsimp only
        rw [List.find?_map]
        have hcomp : (ppKeyMatch rid ∘
            (fun e' => if ppKeyMatch r'.id e' then (e'.1, rankOf source r') else e'))
            = ppKeyMatch rid := by
          funext x
          by_cases h : ppKeyMatch r'.id x = true
          · simp only [Function.comp, if_pos h]
            rfl
          · simp only [Function.comp_apply]
            rw [if_neg h]
        rw [hcomp, hf]
        simp only [Option.map_some']
        have hvx : ppKeyMatch r'.id v = false := by
          simp [ppKeyMatch, hv]
          omega
        rw [if_neg (by simp [hvx])]

theorem merge_fold_preserves (source : List RepoRow) (l : List RepoRow) (rid : Nat)
    (v : Nat × Nat) :
    ∀ acc : List (Nat × Nat) × Nat, (∀ r' ∈ l, r'.id ≠ rid) →
      acc.1.find? (ppKeyMatch rid) = some v →
      (l.foldl (mergeOne source) acc).1.find? (ppKeyMatch rid) = some v := by
  induction l with
  | nil => intro acc _ hf; exact hf
  | cons r0 rest ih =>
      intro acc hne hf
      rw [List.foldl_cons]
      exact ih (mergeOne source acc r0)
        (fun r' hr' => hne r' (List.mem_cons_of_mem _ hr'))
        (mergeOne_preserves source acc r0 rid v (hne r0 (List.mem_cons_self _ _)) hf)

theorem merge_fold_establishes (source : List RepoRow) (l : List RepoRow) :
    ∀ acc : List (Nat × Nat) × Nat, (l.map RepoRow.id).Nodup →
      ∀ r ∈ l, (l.foldl (mergeOne source) acc).1.find? (ppKeyMatch r.id)
        = some (r.id, rankOf source r) := by
  induction l with
  | nil => intro _ _ r hr; exact absurd hr (List.not_mem_nil r)
  | cons r0 rest ih =>
      intro acc hnd r hr
      rw [List.map_cons, List.nodup_cons] at hnd
      rw [List.foldl_cons]
      rcases List.mem_cons.mp hr with rfl | hr'
      · refine merge_fold_preserves source rest r.id _ _ ?_
          (mergeOne_establishes source acc r)
        intro r' hr' heq
        exact hnd.1 (heq ▸ List.mem_map_of_mem RepoRow.id hr')
      · exact ih (mergeOne source acc r0) hnd.2 r hr'

theorem merge_fold_noop (source : List RepoRow) (l : List RepoRow) :
    ∀ (pp : List (Nat × Nat)) (w : Nat),
      (∀ r ∈ l, pp.find? (ppKeyMatch r.id) = some (r.id, rankOf source r)) →
      l.foldl (mergeOne source) (pp, w) = (pp, w) := by
  induction l with
  | nil => intro pp w _; rfl
  | cons r0 rest ih =>
      intro pp w hall
      rw [List.foldl_cons]
      have hstep : mergeOne source (pp, w) r0 = (pp, w) := by
        unfold mergeOne
        rw [hall r0 (List.mem_cons_self _ _)]
        simp
      rw [hstep]
      exact ih pp w (fun r hr => hall r (List.mem_cons_of_mem _ hr))

theorem merge_previous_places_idem (repos : List RepoRow) (pp : List (Nat × Nat))
    (hnd : (repos.map RepoRow.id).Nodup) :
    merge_previous_places repos (merge_previous_places repos pp).1
      = ((merge_previous_places repos pp).1, 0) := by
  unfold merge_previous_places
  exact merge_fold_noop repos repos _ 0
    (fun r hr => merge_fold_establishes repos repos (pp, 0) hnd r hr)

/-- C2 (amended): each of the four storage primitives is idempotent under
repeated identical input — immediately repeating the conditional repository
update, the rank-snapshot merge (for a repository table with unique ids),
the insert-if-absent, or the activity upsert leaves the stored state
unchanged and performs zero row writes the second time. -/
theorem c2_primitives_idempotent :
    (∀ (rows : List RepoRow) (rid : Nat) (d : RepoData),
      update_repositories (update_repositories rows rid d).1 rid d
        = ((update_repositories rows rid d).1, 0)) ∧
    (∀ (repos : List RepoRow) (pp : List (Nat × Nat)),
      (repos.map RepoRow.id).Nodup →
      merge_previous_places repos (merge_previous_places repos pp).1
        = ((merge_previous_places repos pp).1, 0)) ∧
    (∀ (db : DB) (d : RepoData),
      insert_repository (insert_repository db d).1 d
        = ((insert_repository db d).1, none, 0)) ∧
    (∀ (rows : List ActivityRow) (rid : Nat) (act : RepoActivity),
      upsert_activity (upsert_activity rows rid act).1 rid act
        = ((upsert_activity rows rid act).1, 0)) :=
  ⟨update_repositories_idem, merge_previous_places_idem,
    insert_repository_idem, upsert_activity_idem⟩

theorem c2_primitives_idempotent_witness :
    (([⟨1, "a", "b", 3, 0, 0, 0, none⟩] : List RepoRow).map RepoRow.id).Nodup ∧
    merge_previous_places [⟨1, "a", "b", 3, 0, 0, 0, none⟩]
        (merge_previous_places [⟨1, "a", "b", 3, 0, 0, 0, none⟩] []).1
      = ((merge_previous_places [⟨1, "a", "b", 3, 0, 0, 0, none⟩] []).1, 0) :=
  ⟨by decide,
    c2_primitives_idempotent.2.1 [⟨1, "a", "b", 3, 0, 0, 0, none⟩] [] (by decide)⟩

theorem processPage_yield_facts (details : String → String → Option RepoAttrs)
    (skip : List String) (limit : Option Int) (es : List ListingEntry) :
    ∀ (l0 c0 : Nat), ∀ x ∈ (processPage details skip limit es l0 c0).yielded,
      fullName x.1.owner x.1.name ∉ skip ∧
      request_repo details x.1.owner x.1.name = some x.2 := by
  induction es with
  | nil => intro l0 c0 x hx; simp [processPage] at hx
  | cons e rest ih =>
      intro l0 c0 x hx
      by_cases hu : underLimit c0 limit
      · by_cases hskip : fullName e.owner e.name ∈ skip
        · rw [show processPage details skip limit (e :: rest) l0 c0
              = processPage details skip limit rest e.id c0 from by
            simp only [processPage, if_pos hu, if_pos hskip]] at hx
          exact ih e.id c0 x hx
        · cases hreq : request_repo details e.owner e.name with
          | some rd =>
              rw [show processPage details skip limit (e :: rest) l0 c0
                  = ⟨(e, rd) :: (processPage details skip limit rest e.id (c0 + 1)).yielded,
                      (processPage details skip limit rest e.id (c0 + 1)).last_id,
                      (processPage details skip limit rest e.id (c0 + 1)).curr,
                      (processPage details skip limit rest e.id (c0 + 1)).requests + 1⟩ from by
                simp only [processPage, if_pos hu, if_neg hskip, hreq]] at hx
              rcases List.mem_cons.mp hx with rfl | hx'
              · exact ⟨hskip, hreq⟩
              · exact ih e.id (c0 + 1) x hx'
          | none =>
              rw [show processPage details skip limit (e :: rest) l0 c0
                  = ⟨(processPage details skip limit rest e.id c0).yielded,
                      (processPage details skip limit rest e.id c0).last_id,
                      (processPage details skip limit rest e.id c0).curr,
                      (processPage details skip limit rest e.id c0).requests + 1⟩ from by
                simp only [processPage, if_pos hu, if_neg hskip, hreq]] at hx
              exact ih e.id c0 x hx
      · rw [show processPage details skip limit (e :: rest) l0 c0 = ⟨[], l0, c0, 0⟩ from by
          simp only [processPage, if_neg hu]] at hx
        simp at hx

theorem fetchLoop_yield_facts (details : String → String → Option RepoAttrs)
    (listing : List ListingEntry) (pageSize : Nat) (skip : List String)
    (limit : Option Int) :
    ∀ (fuel l0 c0 : Nat),
      ∀ x ∈ (fetchLoop details listing pageSize skip limit fuel l0 c0).yielded,
        fullName x.1.owner x.1.name ∉ skip ∧
        request_repo details x.1.owner x.1.name = some x.2 := by
  intro fuel
  induction fuel with
  | zero => intro l0 c0 x hx; simp [fetchLoop] at hx
  | succ n ih =>
      intro l0 c0 x hx
      by_cases hu : underLimit c0 limit
      · rw [show fetchLoop details listing pageSize skip limit (n + 1) l0 c0
            = ⟨(processPage details skip limit (pageSince listing pageSize l0) l0 c0).yielded
                  ++ (fetchLoop details listing pageSize skip limit n
                      (processPage details skip limit (pageSince listing pageSize l0) l0 c0).last_id
                      (processPage details skip limit (pageSince listing pageSize l0) l0 c0).curr).yielded,
                1 + (processPage details skip limit (pageSince listing pageSize l0) l0 c0).requests
                  + (fetchLoop details listing pageSize skip limit n
                      (processPage details skip limit (pageSince listing pageSize l0) l0 c0).last_id
                      (processPage details skip limit (pageSince listing pageSize l0) l0 c0).curr).requests,
                (fetchLoop details listing pageSize skip limit n
                    (processPage details skip limit (pageSince listing pageSize l0) l0 c0).last_id
                    (processPage details skip limit (pageSince listing pageSize l0) l0 c0).curr).curr,
                (fetchLoop details listing pageSize skip limit n
                    (processPage details skip limit (pageSince listing pageSize l0) l0 c0).last_id
                    (processPage details skip limit (pageSince listing pageSize l0) l0 c0).curr).finished⟩
            from by simp only [fetchLoop, if_pos hu]] at hx
        rcases List.mem_append.mp hx with hx' | hx'
        · exact processPage_yield_facts details skip limit _ l0 c0 x hx'
        · exact ih _ _ x hx'
      · rw [show fetchLoop details listing pageSize skip limit (n + 1) l0 c0
            = ⟨[], 0, c0, true⟩ from by simp only [fetchLoop, if_neg hu]] at hx
        simp at hx

/-- Result of a full `update_database` run: the final database, the total
row writes, the already-handled set built in Step 2, the full names of the
repositories Step 3 inserted, and whether the run finished within the
iteration bound. -/
structure RunResult where
  db : DB
  writes : Nat
  handled : List String
  inserted : List String
  finished : Bool
deriving DecidableEq

/-- Step 1 (`src/parser/update.py:114-142`): the rank-snapshot merge,
unless skipped. -/
def step1 (db : DB) (skip_rank_update : Bool) : DB × Nat :=
  if skip_rank_update then (db, 0)
  else
    ({ db with
        previous_places := (merge_previous_places db.repositories db.previous_places).1 },
      (merge_previous_places db.repositories db.previous_places).2)

/-- The `max(date) ... group by repo_id` join of Step 2
(`src/parser/update.py:158-171`): the latest stored activity date of a
repository, `none` when it has no activity rows. -/
def lastActivityDate (db : DB) (rid : Nat) : Option Date :=
  (db.activity.filter (fun a => a.repo_id == rid)).foldl
    (fun acc a =>
      match acc with
      | none => some a.date
      | some m => some (if Date.lt m a.date then a.date else m))
    none

/-- One repository of Step 2's loop (`src/parser/update.py:174-226`): the
full name is recorded as handled regardless of the fetch result; on success
the attributes are conditionally updated and the activity upserted from the
stored last-activity date. -/
def step2_item (remote : Remote) (acc : DB × Nat × List String)
    (entry : RepoRow × Option Date) : DB × Nat × List String :=
  let handled := acc.2.2 ++ [fullName entry.1.owner entry.1.repo]
  match request_repo remote.details entry.1.owner entry.1.repo with
  | none => (acc.1, acc.2.1, handled)
  | some rd =>
      let (rows, w1) := update_repositories acc.1.repositories entry.1.id rd
      let (db2, w2) := update_activity remote { acc.1 with repositories := rows }
          entry.1.id entry.1.owner entry.1.repo entry.2
      (db2, acc.2.1 + w1 + w2, handled)

/-- Step 2 (`src/parser/update.py:144-228`): when skipped, only collect the
stored full names; otherwise snapshot the repository/last-activity join once
and process every row. -/
def step2 (remote : Remote) (db : DB) (skip_repo_update : Bool) :
    DB × Nat × List String :=
  if skip_repo_update then
    (db, 0, db.repositories.map (fun r => fullName r.owner r.repo))
  else
    (db.repositories.map (fun r => (r, lastActivityDate db r.id))).foldl
      (step2_item remote) (db, 0, [])

/-- Step 3 (`src/parser/update.py:230-274`): discover new repositories with
the already-handled set as the skip set, then ingest each yielded one. -/
def step3 (remote : Remote) (db : DB) (handled : List String) (limit : Option Int)
    (after : Nat) (fuel : Nat) : Phase3State × Bool :=
  let fr := request_public_repositories remote.details remote.listing remote.pageSize
      limit handled after fuel
  (fr.yielded.foldl (step3_item remote) ⟨db, 0, []⟩, fr.finished)

/-- The body of `update_database` (`src/parser/update.py:58-275`) after
parameter validation, with the limit already an integer: the limit and the
id floor are clamped to ≥ 0 (`src/parser/update.py:101,107`) and the three
steps run in order. -/
def run_update (remote : Remote) (db : DB) (skip_rank_update skip_repo_update : Bool)
    (new_repo_limit : Int) (after_github_id : Int) (fuel : Nat) : RunResult :=
  let limit : Option Int := some (max 0 new_repo_limit)
  let after : Nat := (max 0 after_github_id).toNat
  let s1 := step1 db skip_rank_update
  let s2 := step2 remote s1.1 skip_repo_update
  let s3 := step3 remote s2.1 s2.2.2 limit after fuel
  ⟨s3.1.db, s1.2 + s2.2.1 + s3.1.writes, s2.2.2, s3.1.inserted, s3.2⟩

/-- `update_database` (`src/parser/update.py:58-275`).  A `None` limit is
replaced by `inf` before the isinstance check (`src/parser/update.py:92-96`),
which then rejects the float: that path raises `TypeError`, modelled as
`none`. -/
def update_database (remote : Remote) (db : DB) (skip_rank_update skip_repo_update : Bool)
    (new_repo_limit : Option Int) (after_github_id : Int) (fuel : Nat) :
    Option RunResult :=
  match new_repo_limit with
  | none => none
  | some l =>
      some (run_update remote db skip_rank_update skip_repo_update l after_github_id fuel)

theorem step1_repositories (db : DB) (b : Bool) :
    (step1 db b).1.repositories = db.repositories := by
  cases b <;> simp [step1]

theorem step2_fold_handled (remote : Remote) (l : List (RepoRow × Option Date)) :
    ∀ acc : DB × Nat × List String,
      (l.foldl (step2_item remote) acc).2.2
        = acc.2.2 ++ l.map (fun e => fullName e.1.owner e.1.repo) := by
  induction l with
  | nil => intro acc; simp
  | cons e rest ih =>
      intro acc
      have hstep : (step2_item remote acc e).2.2
          = acc.2.2 ++ [fullName e.1.owner e.1.repo] := by
        unfold step2_item
        cases request_repo remote.details e.1.owner e.1.repo <;> simp
      rw [List.foldl_cons, ih, hstep]
      simp

theorem step2_handled (remote : Remote) (db : DB) (b : Bool) :
    (step2 remote db b).2.2 = db.repositories.map (fun r => fullName r.owner r.repo) := by
  cases b with
  | true => simp [step2]
  | false =>
      unfold step2
      rw [if_neg (by simp)]
      rw [step2_fold_handled]
      simp [List.map_map]

theorem step3_fold_inserted (remote : Remote) (ys : List (ListingEntry × RepoData)) :
    ∀ st : Phase3State, ∀ n ∈ (ys.foldl (step3_item remote) st).inserted,
      n ∈ st.inserted ∨ ∃ x ∈ ys, n = fullName x.2.owner x.2.repo := by
  induction ys with
  | nil => intro st n hn; exact Or.inl hn
  | cons x rest ih =>
      intro st n hn
      rw [List.foldl_cons] at hn
      rcases hins : insert_repository st.db x.2 with ⟨db1, oid, w1⟩
      cases oid with
      | none =>
          rw [show step3_item remote st x = ⟨db1, st.writes + w1, st.inserted⟩ from by
            simp only [step3_item, hins]] at hn
          rcases ih _ n hn with h | ⟨y, hy, rfl⟩
          · exact Or.inl h
          · exact Or.inr ⟨y, List.mem_cons_of_mem _ hy, rfl⟩
      | some rid =>
          rw [show step3_item remote st x
              = ⟨(update_activity remote db1 rid x.2.owner x.2.repo none).1,
                  st.writes + w1 + (update_activity remote db1 rid x.2.owner x.2.repo none).2,
                  st.inserted ++ [fullName x.2.owner x.2.repo]⟩ from by
            simp only [step3_item, hins]] at hn
          rcases ih _ n hn with h | ⟨y, hy, rfl⟩
          · rcases List.mem_append.mp h with h' | h'
            · exact Or.inl h'
            · refine Or.inr ⟨x, List.mem_cons_self _ _, ?_⟩
              simpa using h'
          · exact Or.inr ⟨y, List.mem_cons_of_mem _ hy, rfl⟩

theorem request_repo_fields (details : String → String → Option RepoAttrs)
    (o nm : String) (rd : RepoData) (h : request_repo details o nm = some rd) :
    rd.owner = o ∧ rd.repo = nm := by
  unfold request_repo at h
  cases hd : details o nm with
  | none => rw [hd] at h; simp at h
  | some a =>
      rw [hd] at h
      simp only [Option.map_some', Option.some.injEq] at h
      rw [← h]
      exact ⟨rfl, rfl⟩

/-- C4: in every run of `update_database`, the already-handled set built by
Phase 1 is exactly the full names of all stored repositories — including
pairs whose metadata fetch failed, and also when Phase 1 is configured to be
skipped — and no repository whose full name is in that set is ever inserted
by Phase 2 of the same run. -/
theorem c4_no_reinsert (remote : Remote) (db : DB)
    (skip_rank_update skip_repo_update : Bool) (l a : Int) (fuel : Nat) :
    (run_update remote db skip_rank_update skip_repo_update l a fuel).handled
        = db.repositories.map (fun row => fullName row.owner row.repo) ∧
    ∀ n ∈ (run_update remote db skip_rank_update skip_repo_update l a fuel).inserted,
      n ∉ (run_update remote db skip_rank_update skip_repo_update l a fuel).handled := by
  have hh : (step2 remote (step1 db skip_rank_update).1 skip_repo_update).2.2
      = db.repositories.map (fun row => fullName row.owner row.repo) := by
    rw [step2_handled, step1_repositories]
  constructor
  · show (step2 remote (step1 db skip_rank_update).1 skip_repo_update).2.2 = _
    exact hh
  · intro n hn hmem
    have hn' : n ∈ (step3 remote
        (step2 remote (step1 db skip_rank_update).1 skip_repo_update).1
        (step2 remote (step1 db skip_rank_update).1 skip_repo_update).2.2
        (some (max 0 l)) ((max 0 a)).toNat fuel).1.inserted := hn
    have hmem' : n ∈ (step2 remote (step1 db skip_rank_update).1 skip_repo_update).2.2 :=
      hmem
    unfold step3 at hn'
    rcases step3_fold_inserted remote _ _ n hn' with h | ⟨x, hx, rfl⟩
    · simp at h
    · obtain ⟨hskip, hreq⟩ := fetchLoop_yield_facts remote.details remote.listing
        remote.pageSize _ _ fuel _ 0 x hx
      obtain ⟨ho, hr⟩ := request_repo_fields remote.details x.1.owner x.1.name x.2 hreq
      rw [ho, hr] at hmem'
      exact hskip hmem'

/-- Remote dataset with one repository `a/b` carrying one day of activity;
it never changes between runs. -/
def c2Remote : Remote :=
  ⟨[⟨1, "a", "b"⟩], 100, fun _ _ => some ⟨7, 0, 0, 0, none⟩,
    fun _ _ _ => [⟨⟨2024, 1, 2⟩, 1, {"A"}⟩]⟩

/-- An initially empty database. -/
def c2DB0 : DB := ⟨[], [], [], 1⟩

/-- C2 (counterexample): against the unchanged remote dataset `c2Remote`,
the first run (which completes) inserts repository `a/b`; the second run
then performs a nonzero number of row writes — its rank-snapshot phase
records a `previous_places` row for the repository the first run inserted —
refuting "zero additional row writes on the second run". -/
theorem c2_second_run_writes :
    (run_update c2Remote c2DB0 false false 1 0 2).finished = true ∧
    (run_update c2Remote (run_update c2Remote c2DB0 false false 1 0 2).db
        false false 1 0 1).writes ≠ 0 :=
  ⟨by decide, by decide⟩

end GHSync
